import Mathlib

/-!
Verification development for the artifact-assembly pipeline of
`build_kernel.py`.  Text is modelled as lists of characters; the Python
string primitives used by the pipeline (`strip`, `split`, `join`,
`startswith`, `endswith`) are embedded below, and each pipeline function
is translated into an executable Lean definition over an explicit
environment describing the filesystem facts the function consumes.
-/

/-- Text, modelled as a list of characters (a Python `str`). -/
abbrev Chars := List Char

/-- Python `str.strip` whitespace class: space, tab, newline, carriage
return, vertical tab, form feed. -/
def pyIsSpace (c : Char) : Bool :=
  c == ' ' || c == '\t' || c == '\n' || c == '\r' || c == '\x0b' || c == '\x0c'

/-- Python `str.lstrip()`. -/
def lstrip (l : Chars) : Chars := l.dropWhile pyIsSpace

/-- Python `str.rstrip()`. -/
def rstrip (l : Chars) : Chars := (l.reverse.dropWhile pyIsSpace).reverse

/-- Python `str.strip()`: remove whitespace from both ends. -/
def pyStrip (l : Chars) : Chars := lstrip (rstrip l)

/-- Python `line.startswith(Char.ofNat 35)`, the comment marker test of
`read_modules_file`. -/
def startsWithHash : Chars → Bool
  | [] => false
  | c :: _ => c == '#'

/-- The filter condition of `read_modules_file`:
`if line and not line.startswith(...)` applied to the stripped line. -/
def keepLine (s : Chars) : Bool := !s.isEmpty && !startsWithHash s

/-- The parsing loop of `read_modules_file` (build_kernel.py lines
355-361): strip each line, keep it when nonempty and not a comment. -/
def readModulesLines : List Chars → List Chars
  | [] => []
  | line :: rest =>
    let s := pyStrip line
    if keepLine s then s :: readModulesLines rest else readModulesLines rest

/-- `read_modules_file` (build_kernel.py lines 346-361): exits fatally when
the list file is absent, otherwise returns the filtered lines.  The
`Except.error` value models the `sys.exit(1)` call. -/
def read_modules_file (isFile : Bool) (lines : List Chars) :
    Except Unit (List Chars) :=
  if isFile then Except.ok (readModulesLines lines) else Except.error ()

/-- Python `name.endswith(".ko")` used when emitting `modules.load` and
`modules.order`. -/
def endsKo (n : Chars) : Bool :=
  match n.reverse with
  | 'o' :: 'k' :: '.' :: _ => true
  | _ => false

/-- The generation loop for `modules.load` and `modules.order`
(build_kernel.py lines 484-490 and 681-687): for each manifest entry, in
manifest order, write the entry followed by a newline when it ends in
`.ko`.  Both generated files receive exactly this content. -/
def moduleListFileContent : List Chars → Chars
  | [] => []
  | n :: rest =>
    (if endsKo n then n ++ ['\n'] else []) ++ moduleListFileContent rest

/-- Python `s.split(c, 1)` specialised to the colon of the
`modules.dep` rewriter: first component is the text before the first
colon, second component is `some` of the text after it (or `none` when
the line holds no colon). -/
def splitOnceColon : Chars → Chars × Option Chars
  | [] => ([], none)
  | c :: rest =>
    if c = ':' then ([], some rest)
    else
      let r := splitOnceColon rest
      (c :: r.1, r.2)

/-- Accumulator-based core of Python `str.split()` (split on runs of
whitespace, dropping empty fields).  `cur` holds the characters of the
token currently being read, in reverse. -/
def splitWsAux : Chars → Chars → List Chars
  | cur, [] =>
    match cur with
    | [] => []
    | _ :: _ => [cur.reverse]
  | cur, c :: cs =>
    if pyIsSpace c then
      match cur with
      | [] => splitWsAux [] cs
      | _ :: _ => cur.reverse :: splitWsAux [] cs
    else splitWsAux (c :: cur) cs

/-- Python `str.split()` with no separator argument. -/
def splitWs (l : Chars) : List Chars := splitWsAux [] l

/-- Python `sep.join(items)`. -/
def pyJoin (sep : Chars) : List Chars → Chars
  | [] => []
  | [x] => x
  | x :: y :: xs => x ++ sep ++ pyJoin sep (y :: xs)

/-- The fixed path fragment `/lib/modules/` inserted by the
`modules.dep` rewriter. -/
def modDirChars : Chars := "/lib/modules/".toList

/-- The literal `": "` placed between the rewritten module name and its
rewritten dependency list. -/
def colonSpace : Chars := [':', ' ']

/-- The dependency part of one rewritten `modules.dep` line
(build_kernel.py lines 464-466 and 661-663): when the line held a colon,
split the right-hand side on whitespace, strip each field and attach the
mount path to it, then join with single spaces. -/
def rewriteDeps (mpfx : Chars) : Option Chars → Chars
  | none => []
  | some rhs =>
    pyJoin [' '] ((splitWs rhs).map (fun d => mpfx ++ modDirChars ++ pyStrip d))

/-- One iteration of the `modules.dep` rewriting loop (build_kernel.py
lines 460-467 and 657-664): strip the line, split once at a colon,
attach the mount path to the stripped module name and to every
dependency field, emit `main ++ ": " ++ deps` right-stripped. -/
def rewriteLine (mpfx line : Chars) : Chars :=
  rstrip ((mpfx ++ modDirChars ++ pyStrip (splitOnceColon (pyStrip line)).1)
    ++ colonSpace ++ rewriteDeps mpfx (splitOnceColon (pyStrip line)).2)

/-- The whole rewritten `modules.dep` file (build_kernel.py lines
468-469 and 665-666): the rewritten lines joined by single newlines,
with no terminator after the last line. -/
def rewriteDepContent (mpfx : Chars) (lines : List Chars) : Chars :=
  pyJoin ['\n'] (lines.map (rewriteLine mpfx))

/-- Last character of a piece of text, if any. -/
def lastChar (l : Chars) : Option Char := l.reverse.head?

/-- A dependency-file right-hand side written with arbitrary whitespace:
each pair holds a (nonempty, all-whitespace) separator run followed by a
dependency name, and `wEnd` is trailing whitespace. -/
def raggedRHS (ps : List (Chars × Chars)) (wEnd : Chars) : Chars :=
  (ps.map (fun p => p.1 ++ p.2)).flatten ++ wEnd

/-- Kernel-release discovery (build_kernel.py lines 395-399 and 576-581):
`kernel_dirs = list(...glob(...))`; exit when the list is empty, else use
the first entry, with no ambiguity check. -/
def kernelVersionOf (dirs : List String) : Option String :=
  match dirs with
  | [] => none
  | d :: _ => some d

/-- Terminal state of a pipeline function: normal return or
`sys.exit(1)`. -/
inductive ExitKind where
  | success
  | fatal
deriving DecidableEq, Repr

/-- Observable outcome of one image-build invocation: how it exited,
whether the temporary staging directory was created, whether it was
removed again by the time the invocation finished, and which manifest
entries were copied into it. -/
structure RunOutcome where
  exitStatus : ExitKind
  stagingCreated : Bool
  stagingRemoved : Bool
  staged : List Chars
deriving DecidableEq, Repr

/-- Environment consumed by `mk_vendor_rd_dlkm`: the filesystem facts and
external-tool results the function branches on. -/
structure BuildEnv where
  earlyListIsFile : Bool
  listIsFile : Bool
  earlyLines : List Chars
  normalLines : List Chars
  kernelDirs : List String
  findMatches : Chars → List Chars
  toolIsFile : String → Bool
  depmodOk : Bool
  depFileProduced : Bool
  packagingOk : Bool

/-- The combined module manifest of `mk_vendor_rd_dlkm`
(build_kernel.py line 408): `vendor_modules = early_modules + normal_modules`. -/
def mkManifest (env : BuildEnv) : List Chars :=
  readModulesLines env.earlyLines ++ readModulesLines env.normalLines

/-- The module-resolution loop of `mk_vendor_rd_dlkm` (build_kernel.py
lines 414-421): copy each entry in order; on the first entry with zero
matches, stop with failure (the Boolean is false).  Returns the entries
copied before the stop. -/
def copyUntilMissing (find : Chars → List Chars) : List Chars → List Chars × Bool
  | [] => ([], true)
  | n :: rest =>
    match find n with
    | [] => ([], false)
    | _ :: _ =>
      let r := copyUntilMissing find rest
      (n :: r.1, r.2)

/-- `mk_vendor_rd_dlkm` (build_kernel.py lines 363-507), reduced to its
control flow over `BuildEnv`.  The staging directory is created by
`tempfile.mkdtemp` at line 402, after the list-file and kernel-version
checks; the only exits that remove it are the missing-tool branch (line
433, explicit `rmtree`) and the packaging block (lines 492-507, whose
`finally` clause runs on success and on the `except` path alike).  The
fatal exits for an empty manifest, an unresolved module, the dead
re-check of the tools, a failed `depmod`, and a missing `modules.dep`
leave the staging directory on disk. -/
def mk_vendor_rd_dlkm (env : BuildEnv) : RunOutcome :=
  if !(env.earlyListIsFile && env.listIsFile) then
    ⟨.fatal, false, false, []⟩
  else
    match kernelVersionOf env.kernelDirs with
    | none => ⟨.fatal, false, false, []⟩
    | some _ =>
      -- staging directory created here (line 402)
      if (mkManifest env).isEmpty then ⟨.fatal, true, false, []⟩
      else
        let cr := copyUntilMissing env.findMatches (mkManifest env)
        if !cr.2 then ⟨.fatal, true, false, cr.1⟩
        else if cr.1.isEmpty then ⟨.fatal, true, false, cr.1⟩
        else if ["mkbootfs", "lz4", "depmod"].any (fun t => !(env.toolIsFile t)) then
          ⟨.fatal, true, true, cr.1⟩
        else if ["mkbootfs", "lz4", "depmod"].any (fun t => !(env.toolIsFile t)) then
          ⟨.fatal, true, false, cr.1⟩
        else if !env.depmodOk then ⟨.fatal, true, false, cr.1⟩
        else if !env.depFileProduced then ⟨.fatal, true, false, cr.1⟩
        else if !env.packagingOk then ⟨.fatal, true, true, cr.1⟩
        else ⟨.success, true, true, cr.1⟩

/-- The module-resolution loop of `build_dlkm_image` (build_kernel.py
lines 593-622): an entry with zero matches is only logged as a warning
and skipped; a found entry is copied, and per-module code signing (when
requested) exits fatally on missing key material or a failed signing
call.  `none` models a fatal exit inside the loop, `some staged` the
list of copied entries. -/
def dlkmLoop (find : Chars → List Chars) (signMods signFilesOk : Bool)
    (signOk : Chars → Bool) : List Chars → Option (List Chars)
  | [] => some []
  | n :: rest =>
    match find n with
    | [] => dlkmLoop find signMods signFilesOk signOk rest
    | _ :: _ =>
      if signMods && !signFilesOk then none
      else if signMods && !(signOk n) then none
      else
        match dlkmLoop find signMods signFilesOk signOk rest with
        | none => none
        | some s => some (n :: s)

/-- `build_dlkm_image` (build_kernel.py lines 542-709), reduced to its
control flow.  The staging directory is created at line 583 and the whole
body sits inside `try ... finally: shutil.rmtree(staging_dir, ...)`, so
every exit after creation removes it.  `modules` is the already-read
manifest (from `modules.bzl` or a list file). -/
def build_dlkm_image (modules : List Chars) (kernelDirs : List String)
    (find : Chars → List Chars) (signMods signFilesOk : Bool)
    (signOk : Chars → Bool) (toolIsFile : String → Bool)
    (depmodOk depFileProduced mkfsOk : Bool) : RunOutcome :=
  if modules.isEmpty then ⟨.fatal, false, false, []⟩
  else
    match kernelVersionOf kernelDirs with
    | none => ⟨.fatal, false, false, []⟩
    | some _ =>
      -- staging directory created here (line 583); `finally` covers the rest
      match dlkmLoop find signMods signFilesOk signOk modules with
      | none => ⟨.fatal, true, true, []⟩
      | some staged =>
        if staged.isEmpty then ⟨.fatal, true, true, staged⟩
        else if ["mkfs.erofs", "depmod"].any (fun t => !(toolIsFile t)) then
          ⟨.fatal, true, true, staged⟩
        else if !depmodOk then ⟨.fatal, true, true, staged⟩
        else if !depFileProduced then ⟨.fatal, true, true, staged⟩
        else if !mkfsOk then ⟨.fatal, true, true, staged⟩
        else ⟨.success, true, true, staged⟩

/-- AVB footer kind chosen by `sign_partition_image`. -/
inductive FooterClass where
  | hashFooter
  | hashtreeFooter
deriving DecidableEq, Repr

/-- Shape of one `avbtool` invocation: the footer subcommand and the
`--partition_size` argument, when one is passed at all. -/
structure AvbCmd where
  footer : FooterClass
  size : Option Nat
deriving DecidableEq, Repr

/-- The `partition_sizes` dictionary of `sign_partition_image`
(build_kernel.py lines 807-812). -/
def partition_sizes (n : String) : Option Nat :=
  if n = "boot" then some 67108864
  else if n = "vendor_boot" then some 67108864
  else if n = "dtbo" then some 8388608
  else if n = "init_boot" then some 16777216
  else none

/-- The fallback size computation of `sign_partition_image`
(build_kernel.py lines 815-816):
`math.ceil((st_size + 128*1024) / 4096) * 4096`. -/
def fallback_size (rawSize : Nat) : Nat :=
  ((rawSize + 128 * 1024) + 4095) / 4096 * 4096

/-- `sign_partition_image` (build_kernel.py lines 784-851), reduced to
the `avbtool` invocation it issues: names inside
`boot, vendor_boot, dtbo` get an explicit `--partition_size` (the dict
value, or the fallback when the dict yields nothing truthy) with a hash
footer for `boot`/`vendor_boot` and a hashtree footer for `dtbo`; every
other name gets a hashtree footer with no size argument. -/
def sign_partition_image (partName : String) (rawSize : Nat) : AvbCmd :=
  if partName = "boot" ∨ partName = "vendor_boot" ∨ partName = "dtbo" then
    let padded :=
      match partition_sizes partName with
      | none => fallback_size rawSize
      | some s => if s = 0 then fallback_size rawSize else s
    if partName = "boot" ∨ partName = "vendor_boot" then
      { footer := .hashFooter, size := some padded }
    else
      { footer := .hashtreeFooter, size := some padded }
  else
    { footer := .hashtreeFooter, size := none }

/-! ## Helper lemmas about the string primitives -/

lemma dropWhile_append_of_ne {p : Char → Bool} :
    ∀ (a b : Chars), a.dropWhile p ≠ [] →
      (a ++ b).dropWhile p = a.dropWhile p ++ b := by
  intro a
  induction a with
  | nil => intro b h; exact absurd rfl h
  | cons c a ih =>
    intro b h
    by_cases hc : p c
    · rw [List.dropWhile_cons_of_pos hc] at h
      rw [List.cons_append, List.dropWhile_cons_of_pos hc,
        List.dropWhile_cons_of_pos hc]
      exact ih b h
    · rw [List.cons_append, List.dropWhile_cons_of_neg hc,
        List.dropWhile_cons_of_neg hc, List.cons_append]

lemma dropWhile_append_of_all {p : Char → Bool} :
    ∀ (a b : Chars), (∀ c ∈ a, p c = true) →
      (a ++ b).dropWhile p = b.dropWhile p := by
  intro a
  induction a with
  | nil => intro b _; rfl
  | cons c a ih =>
    intro b h
    rw [List.cons_append, List.dropWhile_cons_of_pos (h c (List.mem_cons_self c a))]
    exact ih b (fun x hx => h x (List.mem_cons_of_mem c hx))

lemma rstrip_append_of_ne (a b : Chars) (h : rstrip b ≠ []) :
    rstrip (a ++ b) = a ++ rstrip b := by
  have hb : b.reverse.dropWhile pyIsSpace ≠ [] := by
    intro hnil
    apply h
    unfold rstrip
    rw [hnil, List.reverse_nil]
  unfold rstrip
  rw [List.reverse_append, dropWhile_append_of_ne _ _ hb, List.reverse_append,
    List.reverse_reverse]

lemma rstrip_append_of_all (a b : Chars) (h : ∀ c ∈ b, pyIsSpace c = true) :
    rstrip (a ++ b) = rstrip a := by
  unfold rstrip
  rw [List.reverse_append, dropWhile_append_of_all _ _
    (fun c hc => h c (List.mem_reverse.mp hc))]

lemma rstrip_of_all (b : Chars) (h : ∀ c ∈ b, pyIsSpace c = true) :
    rstrip b = [] := by
  have := rstrip_append_of_all [] b h
  simpa [rstrip] using this

lemma rstrip_of_token (t : Chars) (h : ∀ c ∈ t, pyIsSpace c = false) :
    rstrip t = t := by
  unfold rstrip
  cases hrev : t.reverse with
  | nil =>
    have : t = [] := by
      have := congrArg List.reverse hrev
      simpa using this
    simp [this]
  | cons c r =>
    have hc : pyIsSpace c = false := by
      apply h
      rw [← List.mem_reverse, hrev]
      exact List.mem_cons_self c r
    rw [List.dropWhile_cons_of_neg (by simp [hc]), ← hrev, List.reverse_reverse]

lemma lstrip_cons_of_nonspace (c : Char) (l : Chars) (h : pyIsSpace c = false) :
    lstrip (c :: l) = c :: l := by
  unfold lstrip
  rw [List.dropWhile_cons_of_neg (by simp [h])]

lemma pyStrip_of_token (t : Chars) (h : ∀ c ∈ t, pyIsSpace c = false) :
    pyStrip t = t := by
  unfold pyStrip
  rw [rstrip_of_token t h]
  cases t with
  | nil => rfl
  | cons c r => exact lstrip_cons_of_nonspace c r (h c (List.mem_cons_self c r))

lemma mem_takeWhile_sat {p : Char → Bool} :
    ∀ {l : Chars} {c : Char}, c ∈ l.takeWhile p → p c = true := by
  intro l
  induction l with
  | nil => intro c hc; simp [List.takeWhile] at hc
  | cons a l ih =>
    intro c hc
    by_cases ha : p a
    · rw [List.takeWhile_cons_of_pos ha] at hc
      rcases List.mem_cons.mp hc with h | h
      · rwa [h]
      · exact ih h
    · rw [List.takeWhile_cons_of_neg ha] at hc
      simp at hc

lemma exists_trailing_ws (l : Chars) :
    ∃ w, l = rstrip l ++ w ∧ ∀ c ∈ w, pyIsSpace c = true := by
  refine ⟨(l.reverse.takeWhile pyIsSpace).reverse, ?_, ?_⟩
  · conv_lhs => rw [← l.reverse_reverse,
      ← List.takeWhile_append_dropWhile (p := pyIsSpace) (l := l.reverse)]
    rw [List.reverse_append]
    rfl
  · intro c hc
    exact mem_takeWhile_sat (List.mem_reverse.mp hc)

lemma rstrip_ne_nil_of_mem (l : Chars) (c : Char) (hc : c ∈ l)
    (hs : pyIsSpace c = false) : rstrip l ≠ [] := by
  intro hnil
  obtain ⟨w, hw, hall⟩ := exists_trailing_ws l
  rw [hnil, List.nil_append] at hw
  rw [hw] at hc
  rw [hall c hc] at hs
  simp at hs

lemma head?_dropWhile_false {p : Char → Bool} :
    ∀ (l : Chars) (c : Char), (l.dropWhile p).head? = some c → p c = false := by
  intro l
  induction l with
  | nil => intro c hc; simp [List.dropWhile] at hc
  | cons a l ih =>
    intro c hc
    by_cases ha : p a
    · rw [List.dropWhile_cons_of_pos ha] at hc
      exact ih c hc
    · rw [List.dropWhile_cons_of_neg ha] at hc
      simp at hc
      subst hc
      simpa using ha

lemma lastChar_rstrip_nonspace (l : Chars) (c : Char)
    (h : lastChar (rstrip l) = some c) : pyIsSpace c = false := by
  unfold lastChar rstrip at h
  rw [List.reverse_reverse] at h
  exact head?_dropWhile_false l.reverse c h

/-! ## Lemmas about whitespace splitting -/

lemma splitWsAux_nil_cons_ws (c : Char) (cs : Chars) (h : pyIsSpace c = true) :
    splitWsAux [] (c :: cs) = splitWsAux [] cs := by
  simp [splitWsAux, h]

lemma splitWsAux_cons_cons_ws (d : Char) (cur : Chars) (c : Char) (cs : Chars)
    (h : pyIsSpace c = true) :
    splitWsAux (d :: cur) (c :: cs) = (d :: cur).reverse :: splitWsAux [] cs := by
  simp [splitWsAux, h]

lemma splitWsAux_cons_nonws (cur : Chars) (c : Char) (cs : Chars)
    (h : pyIsSpace c = false) :
    splitWsAux cur (c :: cs) = splitWsAux (c :: cur) cs := by
  simp [splitWsAux, h]

lemma splitWsAux_ws_leading :
    ∀ (w cs : Chars), (∀ c ∈ w, pyIsSpace c = true) →
      splitWsAux [] (w ++ cs) = splitWsAux [] cs := by
  intro w
  induction w with
  | nil => intro cs _; rfl
  | cons c w ih =>
    intro cs h
    rw [List.cons_append, splitWsAux_nil_cons_ws c _ (h c (List.mem_cons_self c w))]
    exact ih cs (fun x hx => h x (List.mem_cons_of_mem c hx))

lemma splitWsAux_all_ws :
    ∀ (w cur : Chars), (∀ c ∈ w, pyIsSpace c = true) →
      splitWsAux cur w = splitWsAux cur [] := by
  intro w
  induction w with
  | nil => intro cur _; rfl
  | cons c w ih =>
    intro cur h
    have hc := h c (List.mem_cons_self c w)
    have hrest : ∀ x ∈ w, pyIsSpace x = true :=
      fun x hx => h x (List.mem_cons_of_mem c hx)
    cases cur with
    | nil =>
      rw [splitWsAux_nil_cons_ws c w hc]
      exact ih [] hrest
    | cons d cur =>
      rw [splitWsAux_cons_cons_ws d cur c w hc, ih [] hrest]
      rfl

lemma splitWsAux_trailing :
    ∀ (l w cur : Chars), (∀ c ∈ w, pyIsSpace c = true) →
      splitWsAux cur (l ++ w) = splitWsAux cur l := by
  intro l
  induction l with
  | nil => intro w cur h; exact splitWsAux_all_ws w cur h
  | cons c l ih =>
    intro w cur h
    by_cases hc : pyIsSpace c
    · cases cur with
      | nil =>
        rw [List.cons_append, splitWsAux_nil_cons_ws c _ hc,
          splitWsAux_nil_cons_ws c _ hc]
        exact ih w [] h
      | cons d cur =>
        rw [List.cons_append, splitWsAux_cons_cons_ws d cur c _ hc,
          splitWsAux_cons_cons_ws d cur c _ hc, ih w [] h]
    · have hc' : pyIsSpace c = false := by simpa using hc
      rw [List.cons_append, splitWsAux_cons_nonws cur c _ hc',
        splitWsAux_cons_nonws cur c _ hc']
      exact ih w (c :: cur) h

lemma splitWsAux_token :
    ∀ (t cur l : Chars), (∀ c ∈ t, pyIsSpace c = false) →
      splitWsAux cur (t ++ l) = splitWsAux (t.reverse ++ cur) l := by
  intro t
  induction t with
  | nil => intro cur l _; rfl
  | cons c t ih =>
    intro cur l h
    rw [List.cons_append, splitWsAux_cons_nonws cur c _ (h c (List.mem_cons_self c t)),
      ih (c :: cur) l (fun x hx => h x (List.mem_cons_of_mem c hx))]
    congr 1
    simp [List.reverse_cons, List.append_assoc]

lemma splitWsAux_flush (cur l : Chars) (hcur : cur ≠ [])
    (hl : l = [] ∨ ∃ c cs, l = c :: cs ∧ pyIsSpace c = true) :
    splitWsAux cur l = cur.reverse :: splitWsAux [] l := by
  obtain rfl | ⟨c, cs, rfl, hc⟩ := hl
  · cases cur with
    | nil => exact absurd rfl hcur
    | cons d cur => rfl
  · cases cur with
    | nil => exact absurd rfl hcur
    | cons d cur =>
      rw [splitWsAux_cons_cons_ws d cur c cs hc, splitWsAux_nil_cons_ws c cs hc]

lemma raggedRHS_head (ps : List (Chars × Chars)) (wEnd : Chars)
    (hps : ∀ p ∈ ps, p.1 ≠ [] ∧ ∀ c ∈ p.1, pyIsSpace c = true)
    (hw : ∀ c ∈ wEnd, pyIsSpace c = true) :
    raggedRHS ps wEnd = [] ∨
      ∃ c cs, raggedRHS ps wEnd = c :: cs ∧ pyIsSpace c = true := by
  cases ps with
  | nil =>
    cases wEnd with
    | nil => left; rfl
    | cons c cs =>
      right
      exact ⟨c, cs, by simp [raggedRHS], hw c (List.mem_cons_self c cs)⟩
  | cons p ps =>
    obtain ⟨hne, hall⟩ := hps p (List.mem_cons_self p ps)
    right
    cases hp : p.1 with
    | nil => exact absurd hp hne
    | cons c w1 =>
      refine ⟨c, w1 ++ p.2 ++ ((ps.map (fun q => q.1 ++ q.2)).flatten ++ wEnd),
        ?_, hall c (by rw [hp]; exact List.mem_cons_self c w1)⟩
      simp [raggedRHS, hp, List.append_assoc]

lemma splitWs_ragged :
    ∀ (ps : List (Chars × Chars)) (wEnd : Chars),
      (∀ p ∈ ps, (p.1 ≠ [] ∧ ∀ c ∈ p.1, pyIsSpace c = true) ∧
        (p.2 ≠ [] ∧ ∀ c ∈ p.2, pyIsSpace c = false)) →
      (∀ c ∈ wEnd, pyIsSpace c = true) →
      splitWs (raggedRHS ps wEnd) = ps.map Prod.snd := by
  intro ps
  induction ps with
  | nil =>
    intro wEnd _ hw
    have h0 : raggedRHS [] wEnd = wEnd := by simp [raggedRHS]
    rw [splitWs, h0, splitWsAux_all_ws wEnd [] hw]
    rfl
  | cons p ps ih =>
    intro wEnd hps hw
    obtain ⟨⟨h1ne, h1ws⟩, h2ne, h2tok⟩ := hps p (List.mem_cons_self p ps)
    have hrest := fun q hq => hps q (List.mem_cons_of_mem p hq)
    have hragged : raggedRHS (p :: ps) wEnd = p.1 ++ (p.2 ++ raggedRHS ps wEnd) := by
      simp [raggedRHS, List.append_assoc]
    rw [splitWs, hragged, splitWsAux_ws_leading p.1 _ h1ws,
      splitWsAux_token p.2 [] _ h2tok, List.append_nil,
      splitWsAux_flush p.2.reverse _ (by simpa using h2ne)
        (raggedRHS_head ps wEnd (fun q hq => (hrest q hq).1) hw),
      List.reverse_reverse, List.map_cons]
    congr 1
    exact ih wEnd hrest hw

lemma splitWs_rstrip (l : Chars) : splitWs (rstrip l) = splitWs l := by
  obtain ⟨w, hl, hw⟩ := exists_trailing_ws l
  unfold splitWs
  conv_rhs => rw [hl]
  rw [splitWsAux_trailing (rstrip l) w [] hw]

lemma splitOnceColon_token :
    ∀ (name rhs : Chars), (∀ c ∈ name, c ≠ ':') →
      splitOnceColon (name ++ ':' :: rhs) = (name, some rhs) := by
  intro name
  induction name with
  | nil => intro rhs _; simp [splitOnceColon]
  | cons c name ih =>
    intro rhs h
    have hc : c ≠ ':' := h c (List.mem_cons_self c name)
    rw [List.cons_append]
    simp [splitOnceColon, hc, ih rhs (fun x hx => h x (List.mem_cons_of_mem c hx))]

lemma pyStrip_colon_line (name rhs : Chars) (hne : name ≠ [])
    (hn : ∀ c ∈ name, pyIsSpace c = false) :
    pyStrip (name ++ ':' :: rhs) = name ++ ':' :: rstrip rhs := by
  have hsplit : name ++ ':' :: rhs = (name ++ [':']) ++ rhs := by simp
  have h1 : rstrip (name ++ ':' :: rhs) = name ++ ':' :: rstrip rhs := by
    by_cases h : rstrip rhs = []
    · obtain ⟨w, hw, hall⟩ := exists_trailing_ws rhs
      rw [h, List.nil_append] at hw
      rw [hsplit, rstrip_append_of_all _ _ (fun c hc => hall c (by rwa [← hw])),
        rstrip_append_of_ne name [':'] (by decide),
        show rstrip [':'] = [':'] from by decide, h]
    · rw [hsplit, rstrip_append_of_ne _ rhs h]
      simp [List.append_assoc]
  unfold pyStrip
  rw [h1]
  cases name with
  | nil => exact absurd rfl hne
  | cons c name =>
    rw [List.cons_append]
    exact lstrip_cons_of_nonspace c _ (hn c (List.mem_cons_self c name))

lemma rewriteLine_canon (mpfx name rhs : Chars) (hne : name ≠ [])
    (hn : ∀ c ∈ name, pyIsSpace c = false ∧ c ≠ ':') :
    rewriteLine mpfx (name ++ ':' :: rhs)
      = rstrip ((mpfx ++ modDirChars ++ name) ++ colonSpace
          ++ pyJoin [' '] ((splitWs rhs).map (fun d => mpfx ++ modDirChars ++ pyStrip d))) := by
  unfold rewriteLine
  rw [pyStrip_colon_line name rhs hne (fun c hc => (hn c hc).1),
    splitOnceColon_token name (rstrip rhs) (fun c hc => (hn c hc).2)]
  simp only [rewriteDeps]
  rw [pyStrip_of_token name (fun c hc => (hn c hc).1), splitWs_rstrip]

/-! ## Lemmas about joins and last characters -/

lemma head?_append_left (a b : Chars) (ha : a ≠ []) : (a ++ b).head? = a.head? := by
  cases a with
  | nil => exact absurd rfl ha
  | cons c a => rfl

lemma lastChar_append (a b : Chars) (hb : b ≠ []) :
    lastChar (a ++ b) = lastChar b := by
  unfold lastChar
  rw [List.reverse_append]
  exact head?_append_left _ _ (by simpa using hb)

lemma pyJoin_ne_nil (sep : Chars) :
    ∀ (L : List Chars), L ≠ [] → (∀ l ∈ L, l ≠ []) → pyJoin sep L ≠ [] := by
  intro L
  induction L with
  | nil => intro h _; exact absurd rfl h
  | cons x L ih =>
    intro _ h
    cases L with
    | nil => simpa [pyJoin] using h x (List.mem_cons_self x [])
    | cons y L =>
      intro hnil
      rw [show pyJoin sep (x :: y :: L) = x ++ sep ++ pyJoin sep (y :: L) from rfl]
        at hnil
      have h1 := (List.append_eq_nil.mp hnil).1
      have h2 := (List.append_eq_nil.mp h1).1
      exact h x (List.mem_cons_self x _) h2

lemma lastChar_pyJoin (sep : Chars) :
    ∀ (L : List Chars), L ≠ [] → (∀ l ∈ L, l ≠ []) →
      ∃ l, l ∈ L ∧ lastChar (pyJoin sep L) = lastChar l := by
  intro L
  induction L with
  | nil => intro h _; exact absurd rfl h
  | cons x L ih =>
    intro _ h
    cases L with
    | nil => exact ⟨x, List.mem_cons_self x [], rfl⟩
    | cons y L =>
      obtain ⟨l, hl, he⟩ := ih (by simp)
        (fun z hz => h z (List.mem_cons_of_mem x hz))
      have hpy : pyJoin sep (y :: L) ≠ [] :=
        pyJoin_ne_nil sep (y :: L) (by simp)
          (fun z hz => h z (List.mem_cons_of_mem x hz))
      refine ⟨l, List.mem_cons_of_mem x hl, ?_⟩
      rw [show pyJoin sep (x :: y :: L) = (x ++ sep) ++ pyJoin sep (y :: L) from rfl,
        lastChar_append _ _ hpy, he]

lemma rewriteLine_ne_nil (mpfx line : Chars) : rewriteLine mpfx line ≠ [] := by
  unfold rewriteLine
  apply rstrip_ne_nil_of_mem _ ':' _ (by decide)
  exact List.mem_append_left _ (List.mem_append_right _ (by simp [colonSpace]))

lemma rewriteLine_lastChar (mpfx line : Chars) (c : Char)
    (h : lastChar (rewriteLine mpfx line) = some c) : pyIsSpace c = false := by
  unfold rewriteLine at h
  exact lastChar_rstrip_nonspace _ c h

/-! ## Lemmas about the manifest reader and generated files -/

lemma readModulesLines_eq_filter :
    ∀ (ls : List Chars), readModulesLines ls = (ls.map pyStrip).filter keepLine := by
  intro ls
  induction ls with
  | nil => rfl
  | cons line rest ih =>
    rw [List.map_cons, List.filter_cons]
    by_cases h : keepLine (pyStrip line)
    · simp [readModulesLines, h, ih]
    · simp [readModulesLines, h, ih]

lemma moduleListFileContent_eq :
    ∀ (ms : List Chars),
      moduleListFileContent ms
        = ((ms.filter endsKo).map (fun n => n ++ ['\n'])).flatten := by
  intro ms
  induction ms with
  | nil => rfl
  | cons n rest ih =>
    rw [List.filter_cons]
    by_cases h : endsKo n
    · simp [moduleListFileContent, h, ih]
    · simp [moduleListFileContent, h, ih]

/-! ## Lemmas about the resolution loops -/

lemma copyUntilMissing_snd_false (find : Chars → List Chars) :
    ∀ (l : List Chars) (m : Chars), m ∈ l → find m = [] →
      (copyUntilMissing find l).2 = false := by
  intro l
  induction l with
  | nil => intro m hm; simp at hm
  | cons n rest ih =>
    intro m hm hfind
    rcases List.mem_cons.mp hm with rfl | hm'
    · simp [copyUntilMissing, hfind]
    · cases hf : find n with
      | nil => simp [copyUntilMissing, hf]
      | cons a as =>
        simp only [copyUntilMissing, hf]
        exact ih m hm' hfind

lemma dlkmLoop_no_sign (find : Chars → List Chars) (sfOk : Bool) (sOk : Chars → Bool) :
    ∀ (l : List Chars),
      dlkmLoop find false sfOk sOk l
        = some (l.filter (fun n => !(find n).isEmpty)) := by
  intro l
  induction l with
  | nil => rfl
  | cons n rest ih =>
    rw [List.filter_cons]
    cases hf : find n with
    | nil => simp [dlkmLoop, hf, ih]
    | cons a as => simp [dlkmLoop, hf, ih]

/-! ## Claim theorems -/

/-- C3: for any early-list source and normal-list source, the combined
module manifest of `mk_vendor_rd_dlkm` equals the filtered early lines
followed by the filtered normal lines: each source is stripped line by
line, comment lines (starting with the hash character) and blank lines
are excluded, the relative order within each source is preserved by the
filter, and every early entry precedes every normal entry. -/
theorem c3_manifest_concat (env : BuildEnv) :
    mkManifest env
      = ((env.earlyLines.map pyStrip).filter keepLine)
        ++ ((env.normalLines.map pyStrip).filter keepLine) := by
  unfold mkManifest
  rw [readModulesLines_eq_filter, readModulesLines_eq_filter]

/-- C4: the generated `modules.load` and `modules.order` files both
receive `moduleListFileContent` of the manifest, which equals the
manifest restricted to entries ending in `.ko`, in manifest order, one
entry per line: the flattening of the order-preserving `filter` keeps
duplicates and never reorders. -/
theorem c4_load_order_content (ms : List Chars) :
    moduleListFileContent ms
      = ((ms.filter endsKo).map (fun n => n ++ ['\n'])).flatten :=
  moduleListFileContent_eq ms

/-- C5: for any mount path, the dependency rewriter maps the line
`a.ko: b.ko c.ko` to the line whose fields are the mount path followed by
`/lib/modules/` and the module name, with the dependency order preserved,
and maps the no-dependency line `a.ko:` to the rewritten name followed by
a bare colon with an empty right-hand side. -/
theorem c5_dep_rewrite (mpfx : Chars) :
    rewriteLine mpfx ("a.ko: b.ko c.ko".toList)
        = mpfx ++ "/lib/modules/a.ko".toList ++ ": ".toList
          ++ mpfx ++ "/lib/modules/b.ko".toList ++ " ".toList
          ++ mpfx ++ "/lib/modules/c.ko".toList
      ∧ rewriteLine mpfx ("a.ko:".toList)
        = mpfx ++ "/lib/modules/a.ko:".toList := by
  constructor
  · rw [show "a.ko: b.ko c.ko".toList
        = "a.ko".toList ++ ':' :: " b.ko c.ko".toList from by decide,
      rewriteLine_canon mpfx "a.ko".toList (" b.ko c.ko".toList)
        (by decide) (by decide),
      show splitWs (" b.ko c.ko".toList) = ["b.ko".toList, "c.ko".toList]
        from by decide]
    simp only [List.map_cons, List.map_nil]
    rw [show pyStrip ("b.ko".toList) = "b.ko".toList from by decide,
      show pyStrip ("c.ko".toList) = "c.ko".toList from by decide,
      show pyJoin [' '] [mpfx ++ modDirChars ++ "b.ko".toList,
          mpfx ++ modDirChars ++ "c.ko".toList]
        = (mpfx ++ modDirChars ++ "b.ko".toList) ++ [' ']
          ++ (mpfx ++ modDirChars ++ "c.ko".toList) from rfl,
      List.append_assoc mpfx modDirChars ("a.ko".toList),
      List.append_assoc mpfx modDirChars ("b.ko".toList),
      List.append_assoc mpfx modDirChars ("c.ko".toList),
      show modDirChars ++ "a.ko".toList = "/lib/modules/a.ko".toList from by decide,
      show modDirChars ++ "b.ko".toList = "/lib/modules/b.ko".toList from by decide,
      show modDirChars ++ "c.ko".toList = "/lib/modules/c.ko".toList from by decide]
    simp only [← List.append_assoc]
    rw [rstrip_append_of_ne _ ("/lib/modules/c.ko".toList) (by decide),
      show rstrip ("/lib/modules/c.ko".toList) = "/lib/modules/c.ko".toList
        from by decide]
    rfl
  · rw [show "a.ko:".toList = "a.ko".toList ++ ':' :: ([] : Chars) from by decide,
      rewriteLine_canon mpfx "a.ko".toList [] (by decide) (by decide),
      show splitWs ([] : Chars) = [] from rfl]
    simp only [List.map_nil]
    rw [show pyJoin [' '] [] = ([] : Chars) from rfl, List.append_nil,
      List.append_assoc mpfx modDirChars ("a.ko".toList),
      show modDirChars ++ "a.ko".toList = "/lib/modules/a.ko".toList from by decide,
      rstrip_append_of_ne _ colonSpace (by decide),
      show rstrip colonSpace = [':'] from by decide,
      List.append_assoc,
      show "/lib/modules/a.ko".toList ++ [':'] = "/lib/modules/a.ko:".toList
        from by decide]

/-- C10: dependency rewriting normalizes whitespace.  For a line whose
right-hand side separates the dependency names by arbitrary nonempty
whitespace runs (with optional trailing whitespace), the rewriter emits
exactly the names joined by single spaces, each name attached to the
mount path; each split field carries no surrounding whitespace so the
strip applied before the path is attached leaves it unchanged; the
rewritten file is the rewritten lines joined by single newlines; and the
file content never ends in a whitespace character, hence has no trailing
newline. -/
theorem c10_ws_normalization (mpfx name wEnd : Chars)
    (ps : List (Chars × Chars)) (lines : List Chars)
    (hname : name ≠ [] ∧ ∀ c ∈ name, pyIsSpace c = false ∧ c ≠ ':')
    (hps : ∀ p ∈ ps, (p.1 ≠ [] ∧ ∀ c ∈ p.1, pyIsSpace c = true) ∧
      (p.2 ≠ [] ∧ ∀ c ∈ p.2, pyIsSpace c = false))
    (hw : ∀ c ∈ wEnd, pyIsSpace c = true)
    (hlines : lines ≠ []) :
    rewriteLine mpfx (name ++ ':' :: raggedRHS ps wEnd)
        = rstrip ((mpfx ++ modDirChars ++ name) ++ colonSpace
            ++ pyJoin [' '] ((ps.map Prod.snd).map (fun d => mpfx ++ modDirChars ++ d)))
      ∧ (∀ d ∈ splitWs (raggedRHS ps wEnd), pyStrip d = d)
      ∧ rewriteDepContent mpfx lines = pyJoin ['\n'] (lines.map (rewriteLine mpfx))
      ∧ (∀ c, lastChar (rewriteDepContent mpfx lines) = some c →
          pyIsSpace c = false) := by
  refine ⟨?_, ?_, rfl, ?_⟩
  · rw [rewriteLine_canon mpfx name _ hname.1 hname.2,
      splitWs_ragged ps wEnd hps hw]
    have hmap : (ps.map Prod.snd).map (fun d => mpfx ++ modDirChars ++ pyStrip d)
        = (ps.map Prod.snd).map (fun d => mpfx ++ modDirChars ++ d) := by
      apply List.map_congr_left
      intro d hd
      obtain ⟨p, hp, rfl⟩ := List.mem_map.mp hd
      rw [pyStrip_of_token _ (hps p hp).2.2]
    rw [hmap]
  · intro d hd
    rw [splitWs_ragged ps wEnd hps hw] at hd
    obtain ⟨p, hp, rfl⟩ := List.mem_map.mp hd
    exact pyStrip_of_token _ (hps p hp).2.2
  · intro c hc
    obtain ⟨l, hl, he⟩ := lastChar_pyJoin ['\n'] (lines.map (rewriteLine mpfx))
      (by simpa using hlines)
      (by
        intro l hl
        obtain ⟨x, _, rfl⟩ := List.mem_map.mp hl
        exact rewriteLine_ne_nil mpfx x)
    rw [rewriteDepContent, he] at hc
    obtain ⟨x, _, rfl⟩ := List.mem_map.mp hl
    exact rewriteLine_lastChar mpfx x c hc

/-- C10 witness: the normalization theorem applied at the concrete mount
path for the vendor DLKM image and the line `x.ko:   y.ko  <tab> z.ko  `. -/
theorem c10_ws_witness :
    rewriteLine ("/vendor_dlkm".toList)
        ("x.ko".toList ++ ':' :: raggedRHS
          [([' ', ' ', ' '], "y.ko".toList), ([' ', '\t', ' '], "z.ko".toList)]
          [' ', ' '])
      = rstrip (("/vendor_dlkm".toList ++ modDirChars ++ "x.ko".toList) ++ colonSpace
          ++ pyJoin [' ']
            (([([' ', ' ', ' '], "y.ko".toList),
               ([' ', '\t', ' '], "z.ko".toList)].map Prod.snd).map
              (fun d => "/vendor_dlkm".toList ++ modDirChars ++ d))) :=
  (c10_ws_normalization ("/vendor_dlkm".toList) ("x.ko".toList) [' ', ' ']
    [([' ', ' ', ' '], "y.ko".toList), ([' ', '\t', ' '], "z.ko".toList)]
    ["x.ko: y.ko".toList]
    (by decide) (by decide) (by decide) (by decide)).1

/-- C6 counterexample: for the unlisted partition name `system_dlkm` with
raw image size 10000000, the signing invocation passes no partition size
at all, while the claim says the padded size
`ceil((10000000 + 131072) / 4096) * 4096 = 10133504` is used. -/
theorem c6_counterexample :
    (sign_partition_image "system_dlkm" 10000000).size = none
      ∧ fallback_size 10000000 = 10133504
      ∧ (sign_partition_image "system_dlkm" 10000000).size ≠ some 10133504 := by
  refine ⟨?_, by decide, ?_⟩ <;> decide

/-- C6 amended: partition `boot` is signed with the fixed padded size
67108864 regardless of the raw image size, and every partition name
outside the set of `boot`, `vendor_boot` and `dtbo` is signed with no
explicit partition size at all (the headroom-and-round-up fallback exists
in the code but is unreachable, since all names that reach it have fixed
sizes). -/
theorem c6_amended :
    (∀ r : Nat, sign_partition_image "boot" r
      = { footer := .hashFooter, size := some 67108864 })
    ∧ (∀ (n : String) (r : Nat), n ≠ "boot" → n ≠ "vendor_boot" → n ≠ "dtbo" →
        sign_partition_image n r = { footer := .hashtreeFooter, size := none }) := by
  constructor
  · intro r
    rfl
  · intro n r h1 h2 h3
    unfold sign_partition_image
    rw [if_neg]
    intro h
    rcases h with h | h | h
    · exact h1 h
    · exact h2 h
    · exact h3 h

/-- C6 witness: the amended size policy evaluated at `boot` with raw size
5 and at the unlisted partition `system_dlkm` with raw size 10000000. -/
theorem c6_amended_witness :
    sign_partition_image "boot" 5
        = { footer := .hashFooter, size := some 67108864 }
      ∧ sign_partition_image "system_dlkm" 10000000
        = { footer := .hashtreeFooter, size := none } :=
  ⟨c6_amended.1 5, c6_amended.2 "system_dlkm" 10000000
    (by decide) (by decide) (by decide)⟩

/-- C7 counterexample: the `dtbo` invocation chooses the hashtree footer
class and still passes an explicit partition size (8388608), refuting the
claim that every hashtree invocation omits the partition size. -/
theorem c7_counterexample :
    (sign_partition_image "dtbo" 0).footer = FooterClass.hashtreeFooter
      ∧ (sign_partition_image "dtbo" 0).size = some 8388608 := by
  constructor <;> decide

/-- C7 amended: an explicit partition size is supplied exactly for the
names `boot`, `vendor_boot` and `dtbo`; the hash footer class is chosen
exactly for `boot` and `vendor_boot`, so `dtbo` receives a hashtree
footer together with an explicit size, and only unlisted partitions let
the tool infer the size. -/
theorem c7_amended (n : String) (r : Nat) :
    ((sign_partition_image n r).size ≠ none
        ↔ (n = "boot" ∨ n = "vendor_boot" ∨ n = "dtbo"))
      ∧ ((sign_partition_image n r).footer = FooterClass.hashFooter
        ↔ (n = "boot" ∨ n = "vendor_boot")) := by
  unfold sign_partition_image
  by_cases h : n = "boot" ∨ n = "vendor_boot" ∨ n = "dtbo"
  · rw [if_pos h]
    by_cases h2 : n = "boot" ∨ n = "vendor_boot"
    · rw [if_pos h2]
      simp [h, h2]
    · rw [if_neg h2]
      simp [h, h2]
  · rw [if_neg h]
    have h2 : ¬(n = "boot" ∨ n = "vendor_boot") := by
      intro hx
      rcases hx with hx | hx
      · exact h (Or.inl hx)
      · exact h (Or.inr (Or.inl hx))
    simp [h, h2]

/-- C8 counterexample: with two kernel-release directories present, the
discovery does not fail; it silently picks the first one. -/
theorem c8_counterexample :
    kernelVersionOf ["6.1.0-a", "6.1.0-b"] = some "6.1.0-a"
      ∧ kernelVersionOf ["6.1.0-a", "6.1.0-b"] ≠ none := by
  constructor <;> decide

/-- C8 amended: kernel-release discovery fails exactly when zero release
directories exist; whenever one or more exist it proceeds with the first
directory in traversal order, performing no ambiguity check. -/
theorem c8_amended (dirs : List String) :
    (kernelVersionOf dirs = none ↔ dirs = [])
      ∧ kernelVersionOf dirs = dirs.head? := by
  cases dirs with
  | nil => exact ⟨by simp [kernelVersionOf], rfl⟩
  | cons d rest => exact ⟨by simp [kernelVersionOf], rfl⟩

/-! ## Behaviour of the two image builders -/

lemma build_dlkm_no_sign_staged (ms : List Chars) (kd : List String)
    (find : Chars → List Chars) (tools : String → Bool) (hkd : kd ≠ []) :
    (build_dlkm_image ms kd find false true (fun _ => true) tools
      true true true).staged
      = ms.filter (fun n => !(find n).isEmpty) := by
  obtain ⟨d, rest, rfl⟩ : ∃ d rest, kd = d :: rest := by
    cases kd with
    | nil => exact absurd rfl hkd
    | cons d rest => exact ⟨d, rest, rfl⟩
  cases hms : ms.isEmpty with
  | true =>
    have h0 : ms = [] := by
      cases ms with
      | nil => rfl
      | cons a l => simp at hms
    subst h0
    simp [build_dlkm_image]
  | false =>
    unfold build_dlkm_image
    rw [hms]
    simp only [Bool.false_eq_true, if_false, kernelVersionOf, dlkmLoop_no_sign]
    repeat' split
    all_goals rfl

lemma build_dlkm_no_sign_success (ms : List Chars) (kd : List String)
    (find : Chars → List Chars) (tools : String → Bool) (hkd : kd ≠ [])
    (htools : ∀ t, tools t = true)
    (hne : ms.filter (fun n => !(find n).isEmpty) ≠ []) :
    (build_dlkm_image ms kd find false true (fun _ => true) tools
      true true true).exitStatus = ExitKind.success := by
  obtain ⟨d, rest, rfl⟩ : ∃ d rest, kd = d :: rest := by
    cases kd with
    | nil => exact absurd rfl hkd
    | cons d rest => exact ⟨d, rest, rfl⟩
  have hms : ms.isEmpty = false := by
    cases ms with
    | nil => simp at hne
    | cons a l => rfl
  have h1 : (ms.filter (fun n => !(find n).isEmpty)).isEmpty = false := by
    cases hv : ms.filter (fun n => !(find n).isEmpty) with
    | nil => exact absurd hv hne
    | cons a l => rfl
  have h2 : (["mkfs.erofs", "depmod"].any (fun t => !(tools t))) = false := by
    simp [htools]
  unfold build_dlkm_image
  rw [hms]
  simp only [Bool.false_eq_true, if_false, kernelVersionOf, dlkmLoop_no_sign]
  simp [h1, h2]

/-- C1: `mk_vendor_rd_dlkm` evaluated at an environment where both list
files exist, the manifest holds the single entry `missing.ko`, one
kernel-release directory exists, and the recursive search finds no match
for the entry: the invocation creates the staging directory, aborts
fatally, and does not remove the staging directory, contradicting the
guaranteed-cleanup claim.  (Its sibling `build_dlkm_image` wraps the
whole body in a `finally` and does clean up on the corresponding path.) -/
theorem c1_staging_leak :
    mk_vendor_rd_dlkm
      { earlyListIsFile := true, listIsFile := true,
        earlyLines := [], normalLines := ["missing.ko".toList],
        kernelDirs := ["6.1.0-android14"],
        findMatches := fun _ => [],
        toolIsFile := fun _ => true,
        depmodOk := true, depFileProduced := true, packagingOk := true }
      = { exitStatus := .fatal, stagingCreated := true,
          stagingRemoved := false, staged := [] } := by
  decide

/-- C2 counterexample: `build_dlkm_image` with the manifest
`a.ko, b.ko` where only `a.ko` resolves finishes successfully and
produces an image with `b.ko` silently omitted, refuting the claim that
every zero-match entry aborts the pipeline in every image-build path. -/
theorem c2_counterexample :
    (build_dlkm_image ["a.ko".toList, "b.ko".toList] ["6.1.0-android14"]
        (fun n => if n = "a.ko".toList then ["kernel/a.ko".toList] else [])
        false true (fun _ => true) (fun _ => true) true true true).exitStatus
      = ExitKind.success
    ∧ "b.ko".toList ∉
      (build_dlkm_image ["a.ko".toList, "b.ko".toList] ["6.1.0-android14"]
        (fun n => if n = "a.ko".toList then ["kernel/a.ko".toList] else [])
        false true (fun _ => true) (fun _ => true) true true true).staged := by
  constructor <;> decide

/-- C2 amended: in the vendor-ramdisk path a zero-match manifest entry
aborts the whole invocation fatally, while in the DLKM filesystem-image
path a zero-match entry is only skipped with a warning: the staged set is
the manifest restricted to resolvable entries, and with all tools present
the build succeeds whenever at least one entry resolves. -/
theorem c2_amended :
    (∀ (env : BuildEnv) (m : Chars), m ∈ mkManifest env →
      env.findMatches m = [] →
      (mk_vendor_rd_dlkm env).exitStatus = ExitKind.fatal)
    ∧ (∀ (ms : List Chars) (kd : List String) (find : Chars → List Chars)
        (tools : String → Bool), kd ≠ [] → (∀ t, tools t = true) →
        (build_dlkm_image ms kd find false true (fun _ => true) tools
          true true true).staged = ms.filter (fun n => !(find n).isEmpty)
        ∧ (ms.filter (fun n => !(find n).isEmpty) ≠ [] →
          (build_dlkm_image ms kd find false true (fun _ => true) tools
            true true true).exitStatus = ExitKind.success)) := by
  constructor
  · intro env m hm hfind
    have hcr : (copyUntilMissing env.findMatches (mkManifest env)).2 = false :=
      copyUntilMissing_snd_false env.findMatches (mkManifest env) m hm hfind
    by_cases h1 : (!(env.earlyListIsFile && env.listIsFile)) = true
    · simp [mk_vendor_rd_dlkm, h1]
    · cases hk : kernelVersionOf env.kernelDirs with
      | none => simp [mk_vendor_rd_dlkm, h1, hk]
      | some v =>
        by_cases h3 : (mkManifest env).isEmpty = true
        · simp [mk_vendor_rd_dlkm, h1, hk, h3]
        · simp [mk_vendor_rd_dlkm, h1, hk, h3, hcr]
  · intro ms kd find tools hkd htools
    exact ⟨build_dlkm_no_sign_staged ms kd find tools hkd,
      fun hne => build_dlkm_no_sign_success ms kd find tools hkd htools hne⟩

/-- C2 witness: the amended statement applied at a concrete environment
whose single manifest entry `ghost.ko` has zero matches, and at a
concrete DLKM build where `a.ko` resolves but `lost.ko` does not. -/
theorem c2_amended_witness :
    (mk_vendor_rd_dlkm
      { earlyListIsFile := true, listIsFile := true, earlyLines := [],
        normalLines := ["ghost.ko".toList],
        kernelDirs := ["6.1.0-android14"], findMatches := fun _ => [],
        toolIsFile := fun _ => true, depmodOk := true,
        depFileProduced := true, packagingOk := true }).exitStatus
      = ExitKind.fatal
    ∧ (build_dlkm_image ["a.ko".toList, "lost.ko".toList] ["6.1.0-android14"]
        (fun n => if n = "a.ko".toList then ["kernel/a.ko".toList] else [])
        false true (fun _ => true) (fun _ => true) true true true).staged
      = (["a.ko".toList, "lost.ko".toList].filter
          (fun n => !((if n = "a.ko".toList
            then (["kernel/a.ko".toList] : List Chars) else [])).isEmpty)) :=
  ⟨c2_amended.1 _ ("ghost.ko".toList) (by decide) rfl,
    (c2_amended.2 ["a.ko".toList, "lost.ko".toList] ["6.1.0-android14"]
      (fun n => if n = "a.ko".toList then ["kernel/a.ko".toList] else [])
      (fun _ => true) (by decide) (fun t => rfl)).1⟩

/-- C9 counterexample: a present list source consisting only of a comment
line is read back as the empty manifest with no error, refuting the claim
that the reader fails fatally whenever a source yields zero entries. -/
theorem c9_counterexample :
    read_modules_file true ["# early list intentionally empty".toList]
      = Except.ok ([] : List Chars)
    ∧ read_modules_file true ["# early list intentionally empty".toList]
      ≠ Except.error () := by
  refine ⟨rfl, ?_⟩
  intro h
  rw [show read_modules_file true ["# early list intentionally empty".toList]
    = Except.ok ([] : List Chars) from rfl] at h
  simp at h

/-- C9 amended: the manifest reader fails fatally exactly when the list
source is absent; a present source is returned filtered, with no
per-source emptiness check.  The fatal emptiness check is applied by the
pipeline to the concatenated manifest: whenever the combined manifest is
empty, the vendor-ramdisk build exits fatally. -/
theorem c9_amended :
    (∀ lines, read_modules_file false lines = Except.error ())
    ∧ (∀ lines, read_modules_file true lines
        = Except.ok (readModulesLines lines))
    ∧ (∀ env : BuildEnv, mkManifest env = [] →
        (mk_vendor_rd_dlkm env).exitStatus = ExitKind.fatal) := by
  refine ⟨fun lines => rfl, fun lines => rfl, ?_⟩
  intro env hempty
  by_cases h1 : (!(env.earlyListIsFile && env.listIsFile)) = true
  · simp [mk_vendor_rd_dlkm, h1]
  · cases hk : kernelVersionOf env.kernelDirs with
    | none => simp [mk_vendor_rd_dlkm, h1, hk]
    | some v => simp [mk_vendor_rd_dlkm, h1, hk, hempty]

/-- C9 witness: the amended statement applied at an environment whose
early source holds only comments and whose normal source is empty. -/
theorem c9_amended_witness :
    (mk_vendor_rd_dlkm
      { earlyListIsFile := true, listIsFile := true,
        earlyLines := ["# comments only".toList], normalLines := [],
        kernelDirs := ["6.1.0-android14"], findMatches := fun _ => [],
        toolIsFile := fun _ => true, depmodOk := true,
        depFileProduced := true, packagingOk := true }).exitStatus
      = ExitKind.fatal :=
  c9_amended.2.2 _ (by decide)
